import Mathlib

/-!
Verification of the Stochastic oscillator indicator
(`src/ts/Stock/Indicators/StochasticIndicator.ts`, the `getValues` method of
the `stochastic` series type).

The embedding models JavaScript numbers as exact rationals extended with the
IEEE special values `NaN`, `+Infinity` and `-Infinity` (`JSNum`); an OHLC bar
is, as in the source, a positional array `[open, high, low, close]`
(`List ℚ` — the spec's data model fixes the four fields to finite numbers).
The two collaborators of `getValues` that are not part of the sources —
`reduceArrayMixin.getArrayExtremes` and `SMA.prototype.getValues` — are
modelled from the spec (§4.1 and §6) and marked as such.

The imperative loop of `getValues` (source lines 217–243) is embedded as a
fold of an explicit step function over the index range, carrying the loop's
mutable state `(xData, yData, SO, D)`; the in-place write
`yData[yData.length - 1][1] = D` of line 242 becomes replacement of the last
element.  A closed form for the loop (`stochState`) is proved by induction
and the individual claims are read off from it.
-/

namespace Stochastic

/-- A JavaScript number value, modelled as an exact rational together with
the special values `NaN`, `+Infinity` and `-Infinity`.  The indicator's
arithmetic is exact-rational at the spec's level of description; the special
values are kept because the division `CL / HL` can produce them. -/
inductive JSNum where
  | num (q : ℚ)
  | nan
  | posInf
  | negInf
deriving DecidableEq, Repr

namespace JSNum

/-- JavaScript unary minus. -/
def neg : JSNum → JSNum
  | num q => num (-q)
  | nan => nan
  | posInf => negInf
  | negInf => posInf

/-- JavaScript addition (`+` on numbers): `NaN` is absorbing and the two
infinities of opposite sign cancel to `NaN`. -/
def add : JSNum → JSNum → JSNum
  | nan, _ => nan
  | _, nan => nan
  | posInf, negInf => nan
  | negInf, posInf => nan
  | posInf, _ => posInf
  | _, posInf => posInf
  | negInf, _ => negInf
  | _, negInf => negInf
  | num a, num b => num (a + b)

/-- JavaScript subtraction, as `a + (-b)`. -/
def sub (a b : JSNum) : JSNum := add a (neg b)

/-- JavaScript multiplication: `NaN` is absorbing, `0 * ±Infinity = NaN`,
otherwise infinities follow the sign rules. -/
def mul : JSNum → JSNum → JSNum
  | nan, _ => nan
  | _, nan => nan
  | posInf, posInf => posInf
  | posInf, negInf => negInf
  | negInf, posInf => negInf
  | negInf, negInf => posInf
  | posInf, num b => if b = 0 then nan else if 0 < b then posInf else negInf
  | num a, posInf => if a = 0 then nan else if 0 < a then posInf else negInf
  | negInf, num b => if b = 0 then nan else if 0 < b then negInf else posInf
  | num a, negInf => if a = 0 then nan else if 0 < a then negInf else posInf
  | num a, num b => num (a * b)

/-- JavaScript division: `0 / 0 = NaN`, a nonzero finite numerator over `0`
gives a signed infinity (the denominator `0` is the positive zero), a finite
numerator over an infinity gives `0`, `Infinity / Infinity = NaN`, and `NaN`
is absorbing. -/
def div : JSNum → JSNum → JSNum
  | nan, _ => nan
  | _, nan => nan
  | posInf, posInf => nan
  | posInf, negInf => nan
  | negInf, posInf => nan
  | negInf, negInf => nan
  | posInf, num b => if 0 ≤ b then posInf else negInf
  | negInf, num b => if 0 ≤ b then negInf else posInf
  | num _, posInf => num 0
  | num _, negInf => num 0
  | num a, num b =>
    if b = 0 then (if a = 0 then nan else if 0 < a then posInf else negInf)
    else num (a / b)

end JSNum

/-- Read the `j`-th entry of a positional bar array.  An out-of-range read is
JavaScript's `undefined`, which behaves as `NaN` in the numeric operations
this value feeds (`yVal[i][close] - LL` in the source), so it is mapped to
`JSNum.nan` here. -/
def barField (b : List ℚ) (j : Nat) : JSNum := (b.get? j).elim JSNum.nan JSNum.num

/-- Minimum of a list of rationals (head-seeded fold; callers guarantee a
non-empty list, the `0` default is never reached under their preconditions). -/
def qMin : List ℚ → ℚ
  | [] => 0
  | a :: t => t.foldl min a

/-- Maximum of a list of rationals (head-seeded fold, as `qMin`). -/
def qMax : List ℚ → ℚ
  | [] => 0
  | a :: t => t.foldl max a

/-- Modelled from the spec: `WindowExtremumTracker.extremes` (spec §4.1),
i.e. `reduceArrayMixin.getArrayExtremes` of `Mixins/ReduceArray.js`, which is
not among the sources.  Given a slice of bars it yields the minimum of the
`minIndex` field and the maximum of the `maxIndex` field over exactly that
slice.  The spec's precondition is that the slice is non-empty and its bars
carry numeric fields; outside the precondition a missing field reads as `0`
and the empty slice yields the seed `0`. -/
def getArrayExtremes (arr : List (List ℚ)) (minIndex maxIndex : Nat) :
    JSNum × JSNum :=
  (JSNum.num (qMin (arr.map fun b => b.getD minIndex 0)),
   JSNum.num (qMax (arr.map fun b => b.getD maxIndex 0)))

/-- Modelled from the spec: the external moving-average capability (spec §6),
i.e. `SMA.prototype.getValues`, which is not among the sources.  Invoked on
exactly `period` samples it returns the single windowed arithmetic mean of
those samples (sum left-to-right, then divide by the period). -/
def sma (samples : List JSNum) (period : Nat) : JSNum :=
  JSNum.div (samples.foldl JSNum.add (JSNum.num 0)) (JSNum.num period)

/-- The raw %K computed by the loop body of `getValues` at series index `i`
(source lines 218–225).  Positional field indices as in the source:
`close = 3`, `low = 2`, `high = 1`.  `yVal.slice(i - periodK + 1, i + 1)`
becomes `drop`/`take`; at the indices the loop visits (`i ≥ periodK - 1`)
the truncated subtraction `i + 1 - periodK` agrees with the source's
`i - periodK + 1`. -/
def rawK (yVal : List (List ℚ)) (periodK i : Nat) : JSNum :=
  let slicedY := (yVal.drop (i + 1 - periodK)).take periodK
  let extremes := getArrayExtremes slicedY 2 1
  let LL := extremes.1
  let CL := JSNum.sub (barField (yVal.getD i []) 3) LL
  let HL := JSNum.sub extremes.2 LL
  JSNum.mul (JSNum.div CL HL) (JSNum.num 100)

/-- The mutable state of the `getValues` loop: the growing `xData`, `yData`
and `SO` arrays and the loop-carried variable `D` (declared outside the loop
in the source, initial value `null`). -/
structure LoopState where
  xData : List ℚ
  yData : List (JSNum × Option JSNum)
  SO : List (ℚ × JSNum × Option JSNum)
  D : Option JSNum
deriving DecidableEq, Repr

/-- The last `n` elements of a list: JavaScript's `slice(-n)` for `n ≥ 1`. -/
def takeLast (n : Nat) (l : List α) : List α := l.drop (l.length - n)

/-- One iteration of the `getValues` loop (source lines 217–243) at series
index `i`: compute %K, push the timestamp and `[K, null]`, recompute `D` as
the moving average of the trailing `periodD` raw-K samples once
`i ≥ (periodK - 1) + (periodD - 1)` (the capability consumes the raw-K
components of `yData.slice(-periodD)`), push `[xVal[i], K, D]` onto `SO`,
and overwrite the `D` slot of the just-pushed `yData` entry (line 242),
which here replaces the last element `(K, none)` by `(K, D)`. -/
def stochStep (xVal : List ℚ) (yVal : List (List ℚ)) (periodK periodD : Nat)
    (s : LoopState) (i : Nat) : LoopState :=
  let K := rawK yVal periodK i
  let yPushed := s.yData ++ [(K, none)]
  let D : Option JSNum :=
    if (periodK - 1) + (periodD - 1) ≤ i then
      some (sma ((takeLast periodD yPushed).map Prod.fst) periodD)
    else s.D
  { xData := s.xData ++ [xVal.getD i 0]
    yData := yPushed.dropLast ++ [(K, D)]
    SO := s.SO ++ [(xVal.getD i 0, K, D)]
    D := D }

/-- The value returned by `getValues`: the `values` (`SO`), `xData` and
`yData` arrays, where a `yData` entry is the pair `[K, D]` and a `values`
entry the triple `[date, K, D]` (`D` is `none` while still `null`). -/
structure StochResult where
  values : List (ℚ × JSNum × Option JSNum)
  xData : List ℚ
  yData : List (JSNum × Option JSNum)
deriving DecidableEq, Repr

/-- The `getValues` method of the stochastic indicator (source lines
174–250).  `xVal`/`yVal` are the linked series' `xData`/`yData`; `periodK`
and `periodD` are `params.periods[0]`/`params.periods[1]` (positive integers
per the spec's `Parameters` invariant).  Returns `none` for the source's
early `return` (the `undefined` result) when the series is shorter than
`periodK` or its first bar is not an array of exactly four values; in this
embedding every bar is an array, so `!isArray(yVal[0])` has no separate
counterpart.  Otherwise runs the loop over `i = periodK - 1, …, yValLen - 1`
and packages the final state. -/
def getValues (xVal : List ℚ) (yVal : List (List ℚ)) (periodK periodD : Nat) :
    Option StochResult :=
  if yVal.length < periodK ∨ (yVal.headD []).length ≠ 4 then none
  else
    let s := (List.range' (periodK - 1) (yVal.length - (periodK - 1))).foldl
      (stochStep xVal yVal periodK periodD) ⟨[], [], [], none⟩
    some ⟨s.SO, s.xData, s.yData⟩

/-- Closed form of the loop-carried `D` at series index `i`: `none` (the
source's `null`) below the threshold `i ≥ (periodK - 1) + (periodD - 1)`,
and from the threshold on the moving average of the raw %K values at series
indices `i - periodD + 1, …, i`. -/
def smoothD (yVal : List (List ℚ)) (periodK periodD i : Nat) : Option JSNum :=
  if (periodK - 1) + (periodD - 1) ≤ i then
    some (sma ((List.range' (i + 1 - periodD) periodD).map (rawK yVal periodK))
      periodD)
  else none

/-- Closed form of the loop state after the first `m` iterations (series
indices `periodK - 1, …, periodK - 2 + m`). -/
def stochState (xVal : List ℚ) (yVal : List (List ℚ))
    (periodK periodD m : Nat) : LoopState :=
  { xData := (List.range' (periodK - 1) m).map fun i => xVal.getD i 0
    yData := (List.range' (periodK - 1) m).map fun i =>
      (rawK yVal periodK i, smoothD yVal periodK periodD i)
    SO := (List.range' (periodK - 1) m).map fun i =>
      (xVal.getD i 0, rawK yVal periodK i, smoothD yVal periodK periodD i)
    D := if m = 0 then none
      else smoothD yVal periodK periodD (periodK - 1 + (m - 1)) }

/-- The low of the window of `periodK` bars ending at series index `i`
(the spec's `LL`), as a plain rational over well-shaped bars. -/
def winLL (yVal : List (List ℚ)) (periodK i : Nat) : ℚ :=
  qMin (((yVal.drop (i + 1 - periodK)).take periodK).map fun b => b.getD 2 0)

/-- The high of the window of `periodK` bars ending at series index `i`
(the spec's `HH`), as a plain rational over well-shaped bars. -/
def winHH (yVal : List (List ℚ)) (periodK i : Nat) : ℚ :=
  qMax (((yVal.drop (i + 1 - periodK)).take periodK).map fun b => b.getD 1 0)

/-- A bar that is well-shaped in the spec's sense: a positional array of
exactly the four fields `[open, high, low, close]`, with the OHLC ordering
`low ≤ close ≤ high`. -/
def WellFormedBar (b : List ℚ) : Prop :=
  b.length = 4 ∧ b.getD 2 0 ≤ b.getD 3 0 ∧ b.getD 3 0 ≤ b.getD 1 0

instance (b : List ℚ) : Decidable (WellFormedBar b) := by
  unfold WellFormedBar; infer_instance

namespace JSNum

lemma add_nan (a : JSNum) : add a nan = nan := by
  cases a <;> rfl

lemma nan_add (a : JSNum) : add nan a = nan := by
  cases a <;> rfl

lemma sub_num (a b : ℚ) : sub (num a) (num b) = num (a - b) := by
  simp [sub, add, neg, sub_eq_add_neg]

lemma mul_num (a b : ℚ) : mul (num a) (num b) = num (a * b) := rfl

lemma mul_nan (b : JSNum) : mul nan b = nan := by
  cases b <;> rfl

lemma div_num_of_ne {a b : ℚ} (hb : b ≠ 0) : div (num a) (num b) = num (a / b) := by
  simp [div, hb]

lemma div_zero_zero : div (num 0) (num 0) = nan := by
  simp [div]

end JSNum

lemma foldl_add_nan (l : List JSNum) : l.foldl JSNum.add JSNum.nan = JSNum.nan := by
  induction l with
  | nil => rfl
  | cons b t ih => simpa [JSNum.nan_add] using ih

lemma foldl_add_of_mem_nan {l : List JSNum} (h : JSNum.nan ∈ l) (a : JSNum) :
    l.foldl JSNum.add a = JSNum.nan := by
  induction l generalizing a with
  | nil => cases h
  | cons b t ih =>
    rcases List.mem_cons.1 h with hb | ht
    · subst hb
      simp [JSNum.add_nan, foldl_add_nan]
    · exact ih ht _

/-- NaN propagation through the moving-average capability: a window that
contains `NaN` averages to `NaN`. -/
lemma sma_nan {samples : List JSNum} (h : JSNum.nan ∈ samples) (p : Nat) :
    sma samples p = JSNum.nan := by
  unfold sma
  rw [foldl_add_of_mem_nan h]
  rfl

/-- The moving average of a single sample with period 1 is that sample. -/
lemma sma_singleton (k : JSNum) : sma [k] 1 = k := by
  cases k <;> simp [sma, JSNum.add, JSNum.div]

lemma foldl_min_le_init : ∀ (l : List ℚ) (a : ℚ), l.foldl min a ≤ a
  | [], a => le_refl a
  | b :: t, a => le_trans (foldl_min_le_init t (min a b)) (min_le_left a b)

lemma foldl_min_le_mem : ∀ {l : List ℚ} {x : ℚ}, x ∈ l → ∀ a : ℚ, l.foldl min a ≤ x := by
  intro l
  induction l with
  | nil => intro x hx; cases hx
  | cons b t ih =>
    intro x hx a
    rcases List.mem_cons.1 hx with rfl | hx
    · exact le_trans (foldl_min_le_init t (min a x)) (min_le_right a x)
    · exact ih hx (min a b)

lemma qMin_le_mem {l : List ℚ} {x : ℚ} (h : x ∈ l) : qMin l ≤ x := by
  cases l with
  | nil => cases h
  | cons b t =>
    rcases List.mem_cons.1 h with rfl | hx
    · exact foldl_min_le_init t x
    · exact foldl_min_le_mem hx b

lemma init_le_foldl_max : ∀ (l : List ℚ) (a : ℚ), a ≤ l.foldl max a
  | [], a => le_refl a
  | b :: t, a => le_trans (le_max_left a b) (init_le_foldl_max t (max a b))

lemma mem_le_foldl_max : ∀ {l : List ℚ} {x : ℚ}, x ∈ l → ∀ a : ℚ, x ≤ l.foldl max a := by
  intro l
  induction l with
  | nil => intro x hx; cases hx
  | cons b t ih =>
    intro x hx a
    rcases List.mem_cons.1 hx with rfl | hx
    · exact le_trans (le_max_right a x) (init_le_foldl_max t (max a x))
    · exact ih hx (max a b)

lemma mem_le_qMax {l : List ℚ} {x : ℚ} (h : x ∈ l) : x ≤ qMax l := by
  cases l with
  | nil => cases h
  | cons b t =>
    rcases List.mem_cons.1 h with rfl | hx
    · exact init_le_foldl_max t x
    · exact mem_le_foldl_max hx b

lemma drop_range'_1 (s n k : Nat) (h : k ≤ n) :
    (List.range' s n).drop k = List.range' (s + k) (n - k) := by
  have h1 : List.range' s k ++ List.range' (s + k) (n - k) = List.range' s n := by
    rw [List.range'_append_1]
    congr 1
    omega
  calc (List.range' s n).drop k
      = (List.range' s k ++ List.range' (s + k) (n - k)).drop k := by rw [h1]
    _ = List.range' (s + k) (n - k) := List.drop_left' (by simp)

lemma takeLast_range' (s n k : Nat) (h : k ≤ n) :
    takeLast k (List.range' s n) = List.range' (s + (n - k)) k := by
  unfold takeLast
  rw [List.length_range', drop_range'_1 _ _ _ (by omega)]
  congr 1
  omega

lemma map_takeLast (f : α → β) (n : Nat) (l : List α) :
    (takeLast n l).map f = takeLast n (l.map f) := by
  unfold takeLast
  rw [List.map_drop, List.length_map]

/-- A well-shaped positional read: on a bar long enough, `barField` is the
plain rational field. -/
lemma barField_eq_getD {b : List ℚ} {j : Nat} (h : j < b.length) :
    barField b j = JSNum.num (b.getD j 0) := by
  unfold barField
  rw [List.get?_eq_getElem?, List.getElem?_eq_getElem h, List.getD_eq_getElem?_getD,
    List.getElem?_eq_getElem h]
  rfl

/-- The bar at series index `i` belongs to the window of `periodK` bars
ending at `i`. -/
lemma bar_mem_sliced (yVal : List (List ℚ)) (periodK i : Nat)
    (hK : 1 ≤ periodK) (hi1 : periodK - 1 ≤ i) (hi2 : i < yVal.length) :
    yVal.getD i [] ∈ (yVal.drop (i + 1 - periodK)).take periodK := by
  have h1 : ((yVal.drop (i + 1 - periodK)).take periodK)[periodK - 1]? = yVal[i]? := by
    rw [List.getElem?_take_of_lt (by omega), List.getElem?_drop]
    congr 1
    omega
  have h2 : yVal.getD i [] = yVal[i] := by
    rw [List.getD_eq_getElem?_getD, List.getElem?_eq_getElem hi2]
    rfl
  rw [h2]
  exact List.getElem?_mem (by rw [h1]; exact List.getElem?_eq_getElem hi2)

/-- One loop iteration takes the closed-form state after `m` iterations to
the closed-form state after `m + 1` iterations. -/
lemma stochStep_state (xVal : List ℚ) (yVal : List (List ℚ))
    (periodK periodD m : Nat) :
    stochStep xVal yVal periodK periodD (stochState xVal yVal periodK periodD m)
      (periodK - 1 + m) = stochState xVal yVal periodK periodD (m + 1) := by
  have hD : (if (periodK - 1) + (periodD - 1) ≤ periodK - 1 + m then
        some (sma ((takeLast periodD ((stochState xVal yVal periodK periodD m).yData
          ++ [(rawK yVal periodK (periodK - 1 + m), none)])).map Prod.fst) periodD)
      else (stochState xVal yVal periodK periodD m).D)
      = smoothD yVal periodK periodD (periodK - 1 + m) := by
    by_cases hthr : (periodK - 1) + (periodD - 1) ≤ periodK - 1 + m
    · rw [if_pos hthr]
      unfold smoothD
      rw [if_pos hthr]
      have hle : periodD ≤ m + 1 := by omega
      have hmap : ((stochState xVal yVal periodK periodD m).yData
          ++ [(rawK yVal periodK (periodK - 1 + m), none)]).map Prod.fst
          = (List.range' (periodK - 1) (m + 1)).map (rawK yVal periodK) := by
        simp only [stochState, List.map_append, List.map_map]
        rw [List.range'_1_concat, List.map_append]
        rfl
      rw [map_takeLast, hmap, ← map_takeLast, takeLast_range' _ _ _ hle]
      have harg : periodK - 1 + (m + 1 - periodD) = periodK - 1 + m + 1 - periodD := by
        omega
      rw [harg]
    · rw [if_neg hthr]
      rw [smoothD, if_neg hthr]
      simp only [stochState]
      by_cases hm : m = 0
      · simp [hm]
      · rw [if_neg hm, smoothD, if_neg (by omega)]
  simp only [stochStep, hD]
  simp only [stochState, List.dropLast_concat]
  refine LoopState.mk.injEq .. ▸ ?_
  refine ⟨?_, ?_, ?_, ?_⟩
  · rw [List.range'_1_concat, List.map_append]
    rfl
  · rw [List.range'_1_concat, List.map_append]
    rfl
  · rw [List.range'_1_concat, List.map_append]
    rfl
  · simp

/-- Closed form of the whole `getValues` loop: folding the step function over
the visited index range from the initial state yields `stochState`. -/
lemma stochFold_state (xVal : List ℚ) (yVal : List (List ℚ))
    (periodK periodD : Nat) (m : Nat) :
    (List.range' (periodK - 1) m).foldl (stochStep xVal yVal periodK periodD)
      ⟨[], [], [], none⟩ = stochState xVal yVal periodK periodD m := by
  induction m with
  | zero => simp [stochState]
  | succ m ih =>
    rw [List.range'_1_concat, List.foldl_append, ih, List.foldl_cons,
      List.foldl_nil, stochStep_state]

/-- Closed form of `getValues` on an accepted input: the three arrays are the
per-index timestamp, `(K, D)` pair and `(date, K, D)` triple over the series
indices `periodK - 1, …, yVal.length - 1`. -/
lemma getValues_eq (xVal : List ℚ) (yVal : List (List ℚ)) (periodK periodD : Nat)
    (hlen : periodK ≤ yVal.length) (hshape : (yVal.headD []).length = 4) :
    getValues xVal yVal periodK periodD = some
      { values := (List.range' (periodK - 1) (yVal.length - (periodK - 1))).map
          fun i => (xVal.getD i 0, rawK yVal periodK i,
            smoothD yVal periodK periodD i)
        xData := (List.range' (periodK - 1) (yVal.length - (periodK - 1))).map
          fun i => xVal.getD i 0
        yData := (List.range' (periodK - 1) (yVal.length - (periodK - 1))).map
          fun i => (rawK yVal periodK i, smoothD yVal periodK periodD i) } := by
  unfold getValues
  rw [if_neg (by push_neg; exact ⟨by omega, hshape⟩)]
  rw [stochFold_state]
  rfl

/-- Projection of `getValues` at output position `j`: lengths of the three
arrays and the entries at `j`, in terms of the closed forms `rawK` and
`smoothD` at series index `periodK - 1 + j`. -/
lemma getValues_get (xVal : List ℚ) (yVal : List (List ℚ))
    (periodK periodD j : Nat)
    (hlen : periodK ≤ yVal.length) (hshape : (yVal.headD []).length = 4)
    (hj : j < yVal.length - (periodK - 1)) :
    ∃ r, getValues xVal yVal periodK periodD = some r ∧
      r.values.length = yVal.length - (periodK - 1) ∧
      r.xData.length = yVal.length - (periodK - 1) ∧
      r.yData.length = yVal.length - (periodK - 1) ∧
      r.values[j]? = some (xVal.getD (periodK - 1 + j) 0,
        rawK yVal periodK (periodK - 1 + j),
        smoothD yVal periodK periodD (periodK - 1 + j)) ∧
      r.xData[j]? = some (xVal.getD (periodK - 1 + j) 0) ∧
      r.yData[j]? = some (rawK yVal periodK (periodK - 1 + j),
        smoothD yVal periodK periodD (periodK - 1 + j)) := by
  refine ⟨_, getValues_eq xVal yVal periodK periodD hlen hshape, ?_⟩
  simp [List.getElem?_range' _ _ hj]

lemma getD_mem {l : List (List ℚ)} {i : Nat} (h : i < l.length) :
    l.getD i [] ∈ l := by
  have h2 : l.getD i [] = l[i] := by
    rw [List.getD_eq_getElem?_getD, List.getElem?_eq_getElem h]
    rfl
  rw [h2]
  exact List.getElem_mem h

lemma headD_mem {l : List (List ℚ)} (h : l ≠ []) : l.headD [] ∈ l := by
  cases l with
  | nil => exact absurd rfl h
  | cons a t => exact List.mem_cons_self a t

/-- On a series of well-shaped (length-4) bars, the %K of the loop body is
exactly the spec's formula `(close - LL) / (HH - LL) * 100` over the plain
window extremes. -/
lemma rawK_eq (yVal : List (List ℚ)) (periodK i : Nat)
    (hwf : ∀ b ∈ yVal, b.length = 4) (hi2 : i < yVal.length) :
    rawK yVal periodK i =
      JSNum.mul (JSNum.div
        (JSNum.num ((yVal.getD i []).getD 3 0 - winLL yVal periodK i))
        (JSNum.num (winHH yVal periodK i - winLL yVal periodK i)))
        (JSNum.num 100) := by
  have hbar : (yVal.getD i []).length = 4 := hwf _ (getD_mem hi2)
  unfold rawK getArrayExtremes winLL winHH
  dsimp only
  rw [barField_eq_getD (by omega)]
  rw [JSNum.sub_num, JSNum.sub_num]

/-- The window low is at most the closing price of the window's last bar,
for OHLC-ordered bars. -/
lemma winLL_le_close (yVal : List (List ℚ)) (periodK i : Nat)
    (hK : 1 ≤ periodK) (hi1 : periodK - 1 ≤ i) (hi2 : i < yVal.length)
    (hwf : ∀ b ∈ yVal, WellFormedBar b) :
    winLL yVal periodK i ≤ (yVal.getD i []).getD 3 0 := by
  have hmem := bar_mem_sliced yVal periodK i hK hi1 hi2
  have hlow : winLL yVal periodK i ≤ (yVal.getD i []).getD 2 0 :=
    qMin_le_mem (List.mem_map_of_mem _ hmem)
  have hwfi := hwf _ (getD_mem hi2)
  exact le_trans hlow hwfi.2.1

/-- The closing price of the window's last bar is at most the window high,
for OHLC-ordered bars. -/
lemma close_le_winHH (yVal : List (List ℚ)) (periodK i : Nat)
    (hK : 1 ≤ periodK) (hi1 : periodK - 1 ≤ i) (hi2 : i < yVal.length)
    (hwf : ∀ b ∈ yVal, WellFormedBar b) :
    (yVal.getD i []).getD 3 0 ≤ winHH yVal periodK i := by
  have hmem := bar_mem_sliced yVal periodK i hK hi1 hi2
  have hhigh : (yVal.getD i []).getD 1 0 ≤ winHH yVal periodK i :=
    mem_le_qMax (List.mem_map_of_mem _ hmem)
  have hwfi := hwf _ (getD_mem hi2)
  exact le_trans hwfi.2.2 hhigh

/-- C1: for every series of length `≥ periodK` of well-shaped bars and every
series index `i` from `periodK - 1` to `N - 1`, the raw oscillator value
emitted at `i` (output position `i - (periodK - 1)`) is
`(close(bars[i]) - LL) / (HH - LL) * 100`, where `LL`/`HH` are the minimum
low and maximum high over the window of exactly `periodK` bars ending at
`i` — stated in JavaScript-number semantics, and, whenever `HH ≠ LL`, as the
plain rational formula. -/
theorem C1_raw_oscillator (xVal : List ℚ) (yVal : List (List ℚ))
    (periodK periodD i : Nat)
    (hK : 1 ≤ periodK) (hlen : periodK ≤ yVal.length)
    (hwf : ∀ b ∈ yVal, b.length = 4)
    (hi1 : periodK - 1 ≤ i) (hi2 : i < yVal.length) :
    ∃ r, getValues xVal yVal periodK periodD = some r ∧
      (r.values[i - (periodK - 1)]?).map (fun v => v.2.1) =
        some (JSNum.mul (JSNum.div
          (JSNum.num ((yVal.getD i []).getD 3 0 - winLL yVal periodK i))
          (JSNum.num (winHH yVal periodK i - winLL yVal periodK i)))
          (JSNum.num 100)) ∧
      (winHH yVal periodK i ≠ winLL yVal periodK i →
        (r.values[i - (periodK - 1)]?).map (fun v => v.2.1) =
          some (JSNum.num (((yVal.getD i []).getD 3 0 - winLL yVal periodK i) /
            (winHH yVal periodK i - winLL yVal periodK i) * 100))) := by
  have hshape : (yVal.headD []).length = 4 :=
    hwf _ (headD_mem (by rw [← List.length_pos]; omega))
  obtain ⟨r, hr, _, _, _, hv, _, _⟩ :=
    getValues_get xVal yVal periodK periodD (i - (periodK - 1)) hlen hshape
      (by omega)
  rw [show periodK - 1 + (i - (periodK - 1)) = i from by omega] at hv
  have hform := rawK_eq yVal periodK i hwf hi2
  refine ⟨r, hr, ?_, ?_⟩
  · rw [hv, Option.map_some', hform]
  · intro hne
    rw [hv, Option.map_some', hform]
    rw [JSNum.div_num_of_ne (sub_ne_zero_of_ne hne), JSNum.mul_num]

/-- Witness for C1 at the spec's concrete scenario (`periodK = 3`, bars
`(close, low, high) = (5,4,6), (7,5,8), (6,4,7), (9,5,10)`): the %K at
series index 2 is 50 and at series index 3 it is `(9 - 4) / (10 - 4) * 100`. -/
theorem C1_raw_oscillator_witness :
    (∃ r, getValues [1, 2, 3, 4] [[5,6,4,5], [7,8,5,7], [6,7,4,6], [9,10,5,9]]
        3 3 = some r ∧
      (r.values[0]?).map (fun v => v.2.1) = some (JSNum.num 50)) ∧
    (∃ r, getValues [1, 2, 3, 4] [[5,6,4,5], [7,8,5,7], [6,7,4,6], [9,10,5,9]]
        3 3 = some r ∧
      (r.values[1]?).map (fun v => v.2.1) =
        some (JSNum.num ((9 - 4) / (10 - 4) * 100))) := by
  constructor
  · obtain ⟨r, hr, h1, h2⟩ := C1_raw_oscillator [1, 2, 3, 4]
      [[5,6,4,5], [7,8,5,7], [6,7,4,6], [9,10,5,9]] 3 3 2
      (by decide) (by decide) (by decide) (by decide) (by decide)
    refine ⟨r, hr, ?_⟩
    rw [h2 (by decide)]
    norm_num [winLL, winHH, qMin, qMax, min_def, max_def]
  · obtain ⟨r, hr, h1, h2⟩ := C1_raw_oscillator [1, 2, 3, 4]
      [[5,6,4,5], [7,8,5,7], [6,7,4,6], [9,10,5,9]] 3 3 3
      (by decide) (by decide) (by decide) (by decide) (by decide)
    refine ⟨r, hr, ?_⟩
    rw [h2 (by decide)]
    norm_num [winLL, winHH, qMin, qMax, min_def, max_def]

/-- C2: in the raw output sequence (0-indexed by `j`, output position `j`
being series index `j + periodK - 1`), the smoothed value `D` is the absent
marker (`none`, the source's `null`) for all `j < periodD - 1`, and for all
`j ≥ periodD - 1` it is the moving average — via the external capability
with period `periodD` — of the trailing `periodD` raw %K values at output
positions `j - periodD + 1, …, j`. -/
theorem C2_smoothed (xVal : List ℚ) (yVal : List (List ℚ))
    (periodK periodD j : Nat)
    (hK : 1 ≤ periodK) (hD : 1 ≤ periodD)
    (hlen : periodK ≤ yVal.length) (hshape : (yVal.headD []).length = 4)
    (hj : j < yVal.length - (periodK - 1)) :
    ∃ r, getValues xVal yVal periodK periodD = some r ∧
      (j < periodD - 1 → (r.yData[j]?).map Prod.snd = some none) ∧
      (periodD - 1 ≤ j → (r.yData[j]?).map Prod.snd = some (some (sma
        ((List.range' (j + 1 - periodD) periodD).map
          (fun t => rawK yVal periodK (periodK - 1 + t))) periodD))) := by
  obtain ⟨r, hr, _, _, _, _, _, hy⟩ :=
    getValues_get xVal yVal periodK periodD j hlen hshape hj
  refine ⟨r, hr, ?_, ?_⟩
  · intro hlt
    rw [hy, Option.map_some']
    rw [smoothD, if_neg (by omega)]
  · intro hge
    rw [hy, Option.map_some']
    rw [smoothD, if_pos (by omega)]
    rw [show periodK - 1 + j + 1 - periodD = periodK - 1 + (j + 1 - periodD)
      from by omega, ← List.map_add_range', List.map_map]
    rfl

/-- Witness for C2 with `periodK = 3`, `periodD = 2` on the C1 bars: at
output position 0 the smoothed value is still the absent marker, at output
position 1 it is the average of the two raw %K values,
`(50 + 250/3) / 2 = 200/3`. -/
theorem C2_smoothed_witness :
    (∃ r, getValues [1, 2, 3, 4] [[5,6,4,5], [7,8,5,7], [6,7,4,6], [9,10,5,9]]
        3 2 = some r ∧
      (r.yData[0]?).map Prod.snd = some none) ∧
    (∃ r, getValues [1, 2, 3, 4] [[5,6,4,5], [7,8,5,7], [6,7,4,6], [9,10,5,9]]
        3 2 = some r ∧
      (r.yData[1]?).map Prod.snd = some (some (JSNum.num (200 / 3)))) := by
  constructor
  · obtain ⟨r, hr, h1, h2⟩ := C2_smoothed [1, 2, 3, 4]
      [[5,6,4,5], [7,8,5,7], [6,7,4,6], [9,10,5,9]] 3 2 0
      (by decide) (by decide) (by decide) (by decide) (by decide)
    exact ⟨r, hr, h1 (by decide)⟩
  · obtain ⟨r, hr, h1, h2⟩ := C2_smoothed [1, 2, 3, 4]
      [[5,6,4,5], [7,8,5,7], [6,7,4,6], [9,10,5,9]] 3 2 1
      (by decide) (by decide) (by decide) (by decide) (by decide)
    refine ⟨r, hr, ?_⟩
    rw [h2 (by decide)]
    norm_num [sma, rawK, getArrayExtremes, barField, winLL, winHH, qMin, qMax,
      min_def, max_def, JSNum.add, JSNum.div, JSNum.sub, JSNum.neg, JSNum.mul,
      List.range']

/-- C3: on a series with `yVal.length ≥ periodK` (and `xData` parallel to
`yData`), `getValues` returns exactly `yVal.length - periodK + 1` records;
the three returned sequences have equal length and are index-aligned, and
the timestamp at output position `j` is the timestamp of input bar
`j + periodK - 1`. -/
theorem C3_alignment (xVal : List ℚ) (yVal : List (List ℚ))
    (periodK periodD : Nat)
    (hK : 1 ≤ periodK) (hlen : periodK ≤ yVal.length)
    (hx : xVal.length = yVal.length) (hshape : (yVal.headD []).length = 4) :
    ∃ r, getValues xVal yVal periodK periodD = some r ∧
      r.values.length = yVal.length - periodK + 1 ∧
      r.xData.length = yVal.length - periodK + 1 ∧
      r.yData.length = yVal.length - periodK + 1 ∧
      ∀ j, j < yVal.length - periodK + 1 →
        r.xData[j]? = xVal[j + (periodK - 1)]? ∧
        (r.values[j]?).map (fun v => v.1) = r.xData[j]? ∧
        (r.values[j]?).map (fun v => v.2) = r.yData[j]? := by
  refine ⟨_, getValues_eq xVal yVal periodK periodD hlen hshape, ?_, ?_, ?_, ?_⟩
  · simp only [List.length_map, List.length_range']
    omega
  · simp only [List.length_map, List.length_range']
    omega
  · simp only [List.length_map, List.length_range']
    omega
  · intro j hj
    have hj2 : j < yVal.length - (periodK - 1) := by omega
    have hjx : j + (periodK - 1) < xVal.length := by omega
    have hts : xVal[j + (periodK - 1)]? = some (xVal.getD (periodK - 1 + j) 0) := by
      rw [List.getD_eq_getElem?_getD,
        show periodK - 1 + j = j + (periodK - 1) from by omega,
        List.getElem?_eq_getElem hjx]
      rfl
    refine ⟨?_, ?_, ?_⟩
    · rw [hts]
      simp [List.getElem?_range' _ _ hj2]
    · simp [List.getElem?_range' _ _ hj2]
    · simp [List.getElem?_range' _ _ hj2]

/-- Witness for C3 on the C1 bars: four bars, `periodK = 3`, so two aligned
records with timestamps 3 and 4. -/
theorem C3_alignment_witness :
    ∃ r, getValues [1, 2, 3, 4] [[5,6,4,5], [7,8,5,7], [6,7,4,6], [9,10,5,9]]
        3 3 = some r ∧
      r.values.length = 2 ∧ r.xData.length = 2 ∧ r.yData.length = 2 ∧
      ∀ j, j < 2 →
        r.xData[j]? = [(1 : ℚ), 2, 3, 4][j + 2]? ∧
        (r.values[j]?).map (fun v => v.1) = r.xData[j]? ∧
        (r.values[j]?).map (fun v => v.2) = r.yData[j]? :=
  C3_alignment [1, 2, 3, 4] [[5,6,4,5], [7,8,5,7], [6,7,4,6], [9,10,5,9]] 3 3
    (by decide) (by decide) (by decide) (by decide)

/-- C4 counterexample: the claim says a series whose bars do not EACH carry
exactly four numeric fields yields no output at all, but the source checks
only `yVal[0]`: on a 2-bar series whose second bar has only three fields
(`periodK = 2`, `periodD = 1`), `getValues` still returns one record. -/
theorem C4_counterexample :
    (¬ ∀ b ∈ ([[0,6,4,5], [0,8,5]] : List (List ℚ)), b.length = 4) ∧
    (getValues [1, 2] [[0,6,4,5], [0,8,5]] 2 1).map (fun r => r.values.length)
      = some 1 := by
  constructor
  · decide
  · rw [getValues_eq [1, 2] [[0,6,4,5], [0,8,5]] 2 1 (by decide) (by decide)]
    rfl

/-- C4 (amended): if `series.length < periodK`, or the FIRST bar is not an
array of exactly four fields, `getValues` produces no output records at all
(the source's early `return`, i.e. `none`); in particular a series of length
2 with `periodK = 3` yields zero records. -/
theorem C4_rejection (xVal : List ℚ) (yVal : List (List ℚ))
    (periodK periodD : Nat)
    (h : yVal.length < periodK ∨ (yVal.headD []).length ≠ 4) :
    getValues xVal yVal periodK periodD = none := by
  unfold getValues
  rw [if_pos h]

/-- Witness for the amended C4 at the spec's short-series scenario:
`series.length = 2`, `periodK = 3` gives zero records. -/
theorem C4_rejection_witness :
    getValues [1, 2] [[5,6,4,5], [7,8,5,7]] 3 3 = none :=
  C4_rejection [1, 2] [[5,6,4,5], [7,8,5,7]] 3 3 (by decide)

/-- C5: in a flat window (`HH = LL`) over OHLC-ordered bars, the emitted %K
is the non-numeric `NaN` marker, the computation does not abort (the full
record count is still produced), and every smoothed `D` whose
`periodD`-length smoothing window contains that `NaN` %K is itself
non-numeric. -/
theorem C5_flat_window (xVal : List ℚ) (yVal : List (List ℚ))
    (periodK periodD i : Nat)
    (hK : 1 ≤ periodK) (hD : 1 ≤ periodD) (hlen : periodK ≤ yVal.length)
    (hwf : ∀ b ∈ yVal, WellFormedBar b)
    (hi1 : periodK - 1 ≤ i) (hi2 : i < yVal.length)
    (hflat : winHH yVal periodK i = winLL yVal periodK i) :
    ∃ r, getValues xVal yVal periodK periodD = some r ∧
      (r.values[i - (periodK - 1)]?).map (fun v => v.2.1) = some JSNum.nan ∧
      r.values.length = yVal.length - periodK + 1 ∧
      ∀ j, i - (periodK - 1) ≤ j → j < i - (periodK - 1) + periodD →
        periodD - 1 ≤ j → j < yVal.length - (periodK - 1) →
        (r.yData[j]?).map Prod.snd = some (some JSNum.nan) := by
  have hwf4 : ∀ b ∈ yVal, b.length = 4 := fun b hb => (hwf b hb).1
  have hshape : (yVal.headD []).length = 4 :=
    hwf4 _ (headD_mem (by rw [← List.length_pos]; omega))
  have hclose : (yVal.getD i []).getD 3 0 = winLL yVal periodK i :=
    le_antisymm (hflat ▸ close_le_winHH yVal periodK i hK hi1 hi2 hwf)
      (winLL_le_close yVal periodK i hK hi1 hi2 hwf)
  have hKnan : rawK yVal periodK i = JSNum.nan := by
    rw [rawK_eq yVal periodK i hwf4 hi2, hclose, hflat, sub_self,
      JSNum.div_zero_zero, JSNum.mul_nan]
  refine ⟨_, getValues_eq xVal yVal periodK periodD hlen hshape, ?_, ?_, ?_⟩
  · have hj0 : i - (periodK - 1) < yVal.length - (periodK - 1) := by omega
    simp only [List.getElem?_map, List.getElem?_range' _ _ hj0, one_mul,
      Option.map_some']
    rw [show periodK - 1 + (i - (periodK - 1)) = i from by omega, hKnan]
  · simp only [List.length_map, List.length_range']
    omega
  · intro j hj1 hj2 hj3 hj4
    simp only [List.getElem?_map, List.getElem?_range' _ _ hj4, one_mul,
      Option.map_some']
    rw [smoothD, if_pos (by omega)]
    have hmem : JSNum.nan ∈ (List.range' (periodK - 1 + j + 1 - periodD)
        periodD).map (rawK yVal periodK) :=
      List.mem_map.2 ⟨i, List.mem_range'_1.2 ⟨by omega, by omega⟩, hKnan⟩
    rw [sma_nan hmem]

/-- Witness for C5: bars `[[10,10,10,10], [10,10,10,10], [11,12,9,11]]` with
`periodK = periodD = 2`; the window ending at series index 1 is flat, so %K
there is `NaN`, both records are still emitted, and the smoothed value at
output position 1 (whose window contains the `NaN`) is `NaN` as well. -/
theorem C5_flat_window_witness :
    ∃ r, getValues [1, 2, 3] [[10,10,10,10], [10,10,10,10], [11,12,9,11]]
        2 2 = some r ∧
      (r.values[0]?).map (fun v => v.2.1) = some JSNum.nan ∧
      r.values.length = 2 ∧
      ∀ j, 0 ≤ j → j < 0 + 2 → 1 ≤ j → j < 2 →
        (r.yData[j]?).map Prod.snd = some (some JSNum.nan) :=
  C5_flat_window [1, 2, 3] [[10,10,10,10], [10,10,10,10], [11,12,9,11]] 2 2 1
    (by decide) (by decide) (by decide) (by decide) (by decide) (by decide)
    (by decide)

/-- C6: whenever the window satisfies `HH ≠ LL` (over OHLC-ordered bars),
the emitted %K is a plain number in `[0, 100]`; a close equal to the window
low gives `K = 0` and a close equal to the window high gives `K = 100`. -/
theorem C6_bounded (xVal : List ℚ) (yVal : List (List ℚ))
    (periodK periodD i : Nat)
    (hK : 1 ≤ periodK) (hlen : periodK ≤ yVal.length)
    (hwf : ∀ b ∈ yVal, WellFormedBar b)
    (hi1 : periodK - 1 ≤ i) (hi2 : i < yVal.length)
    (hne : winHH yVal periodK i ≠ winLL yVal periodK i) :
    ∃ r, getValues xVal yVal periodK periodD = some r ∧
      ∃ q : ℚ, (r.values[i - (periodK - 1)]?).map (fun v => v.2.1)
          = some (JSNum.num q) ∧
        0 ≤ q ∧ q ≤ 100 ∧
        ((yVal.getD i []).getD 3 0 = winLL yVal periodK i → q = 0) ∧
        ((yVal.getD i []).getD 3 0 = winHH yVal periodK i → q = 100) := by
  have hwf4 : ∀ b ∈ yVal, b.length = 4 := fun b hb => (hwf b hb).1
  have hshape : (yVal.headD []).length = 4 :=
    hwf4 _ (headD_mem (by rw [← List.length_pos]; omega))
  have hLLc := winLL_le_close yVal periodK i hK hi1 hi2 hwf
  have hcHH := close_le_winHH yVal periodK i hK hi1 hi2 hwf
  have hlt : winLL yVal periodK i < winHH yVal periodK i :=
    lt_of_le_of_ne (le_trans hLLc hcHH) (fun h => hne h.symm)
  obtain ⟨r, hr, _, _, _, hv, _, _⟩ := getValues_get xVal yVal periodK periodD
    (i - (periodK - 1)) hlen hshape (by omega)
  rw [show periodK - 1 + (i - (periodK - 1)) = i from by omega] at hv
  refine ⟨r, hr, ((yVal.getD i []).getD 3 0 - winLL yVal periodK i) /
    (winHH yVal periodK i - winLL yVal periodK i) * 100, ?_, ?_, ?_, ?_, ?_⟩
  · rw [hv, Option.map_some', rawK_eq yVal periodK i hwf4 hi2,
      JSNum.div_num_of_ne (sub_ne_zero_of_ne hne), JSNum.mul_num]
  · have h1 : (0 : ℚ) ≤ ((yVal.getD i []).getD 3 0 - winLL yVal periodK i) /
        (winHH yVal periodK i - winLL yVal periodK i) :=
      div_nonneg (by linarith) (by linarith)
    linarith
  · have h2 : ((yVal.getD i []).getD 3 0 - winLL yVal periodK i) /
        (winHH yVal periodK i - winLL yVal periodK i) ≤ 1 :=
      (div_le_one (by linarith)).2 (by linarith)
    have h3 := mul_le_mul_of_nonneg_right h2 (show (0 : ℚ) ≤ 100 by norm_num)
    linarith
  · intro hc
    rw [hc, sub_self, zero_div, zero_mul]
  · intro hc
    rw [hc, div_self (sub_ne_zero_of_ne hne), one_mul]

/-- Witness for C6 on the C1 bars at series index 2: `HH = 8 ≠ 4 = LL`, and
the %K there is a number in `[0, 100]` (in fact 50). -/
theorem C6_bounded_witness :
    ∃ r, getValues [1, 2, 3, 4] [[5,6,4,5], [7,8,5,7], [6,7,4,6], [9,10,5,9]]
        3 3 = some r ∧
      ∃ q : ℚ, (r.values[0]?).map (fun v => v.2.1) = some (JSNum.num q) ∧
        0 ≤ q ∧ q ≤ 100 ∧
        (([[5,6,4,5], [7,8,5,7], [6,7,4,6], [9,10,5,9]].getD 2
            ([] : List ℚ)).getD 3 0 =
          winLL [[5,6,4,5], [7,8,5,7], [6,7,4,6], [9,10,5,9]] 3 2 → q = 0) ∧
        (([[5,6,4,5], [7,8,5,7], [6,7,4,6], [9,10,5,9]].getD 2
            ([] : List ℚ)).getD 3 0 =
          winHH [[5,6,4,5], [7,8,5,7], [6,7,4,6], [9,10,5,9]] 3 2 → q = 100) :=
  C6_bounded [1, 2, 3, 4] [[5,6,4,5], [7,8,5,7], [6,7,4,6], [9,10,5,9]] 3 3 2
    (by decide) (by decide) (by decide) (by decide) (by decide) (by decide)

/-- C7: the malformed-series check inspects only the first bar — `getValues`
returns a result exactly when the series is long enough and bar 0 is an
array of exactly four fields, independently of every later bar; in
particular a series whose second bar has only three fields still yields its
full output. -/
theorem C7_first_bar_only :
    (∀ (xVal : List ℚ) (yVal : List (List ℚ)) (periodK periodD : Nat),
      (getValues xVal yVal periodK periodD).isSome = true ↔
        periodK ≤ yVal.length ∧ (yVal.headD []).length = 4) ∧
    (getValues [1, 2] [[0,6,4,5], [0,8,5]] 2 1).map (fun r => r.values.length)
      = some 1 := by
  constructor
  · intro xVal yVal periodK periodD
    unfold getValues
    by_cases h : yVal.length < periodK ∨ (yVal.headD []).length ≠ 4
    · rw [if_pos h]
      refine iff_of_false (by simp) ?_
      rintro ⟨h1, h2⟩
      rcases h with h | h
      · omega
      · exact h h2
    · rw [if_neg h]
      push_neg at h
      exact iff_of_true (by simp) ⟨by omega, h.2⟩
  · rw [getValues_eq [1, 2] [[0,6,4,5], [0,8,5]] 2 1 (by decide) (by decide)]
    rfl

/-- C8: `getValues` is deterministic and stateless — in this embedding it is
a pure function of `(xVal, yVal, periodK, periodD)` alone (the source reads
only `series.xData`, `series.yData` and `params.periods`, and writes only
locally allocated arrays), so two invocations on the same series and
parameters return identical output sequences. -/
theorem C8_deterministic (xVal : List ℚ) (yVal : List (List ℚ))
    (periodK periodD : Nat) :
    getValues xVal yVal periodK periodD = getValues xVal yVal periodK periodD :=
  rfl

/-- C10: with `periodD = 1` the smoothing threshold holds at every emitted
index, so `D` is present from the very first output record onward and equals
that record's raw %K (the moving average of a single sample). -/
theorem C10_periodD_one (xVal : List ℚ) (yVal : List (List ℚ))
    (periodK j : Nat)
    (hK : 1 ≤ periodK) (hlen : periodK ≤ yVal.length)
    (hshape : (yVal.headD []).length = 4)
    (hj : j < yVal.length - (periodK - 1)) :
    ∃ r, getValues xVal yVal periodK 1 = some r ∧
      r.yData[j]? = some (rawK yVal periodK (periodK - 1 + j),
        some (rawK yVal periodK (periodK - 1 + j))) := by
  obtain ⟨r, hr, _, _, _, _, _, hy⟩ :=
    getValues_get xVal yVal periodK 1 j hlen hshape hj
  refine ⟨r, hr, ?_⟩
  rw [hy]
  have hsm : smoothD yVal periodK 1 (periodK - 1 + j)
      = some (rawK yVal periodK (periodK - 1 + j)) := by
    rw [smoothD, if_pos (by omega)]
    rw [show periodK - 1 + j + 1 - 1 = periodK - 1 + j from by omega,
      List.range'_one, List.map_cons, List.map_nil, sma_singleton]
  rw [hsm]

/-- Witness for C10 on the C1 bars with `periodD = 1`: at the first output
record (`j = 0`, series index 2) the smoothed value is already present and
equals the raw %K. -/
theorem C10_periodD_one_witness :
    ∃ r, getValues [1, 2, 3, 4] [[5,6,4,5], [7,8,5,7], [6,7,4,6], [9,10,5,9]]
        3 1 = some r ∧
      r.yData[0]? = some
        (rawK [[5,6,4,5], [7,8,5,7], [6,7,4,6], [9,10,5,9]] 3 2,
         some (rawK [[5,6,4,5], [7,8,5,7], [6,7,4,6], [9,10,5,9]] 3 2)) :=
  C10_periodD_one [1, 2, 3, 4] [[5,6,4,5], [7,8,5,7], [6,7,4,6], [9,10,5,9]]
    3 0 (by decide) (by decide) (by decide) (by decide)

end Stochastic
